import Mathlib

/-!
Verification development for the petrelic arithmetic core.

The repository exposes, through `petrelic.h` / `petrelic.c`, a
multi-precision signed integer engine (`bn_*`), elliptic-curve groups G1
and G2, a target group GT and a bilinear pairing `pc_map`.  Only the
declarations and the struct layouts are part of the repository; the
bodies of the arithmetic routines live in the external RELIC library.
Accordingly, the `bn_st` struct layout and the constant getters are
embedded directly from the source, while the arithmetic operations are
modelled from the specification, as recorded in each doc comment.

All machine integers are modelled as `Nat`/`Int` with explicit bounds.
-/

/-! ## Big integer engine: values

A `bn_t` holds a sign and a magnitude (sign-magnitude representation,
`sign` and `dp[]` fields of `bn_st`).  Its mathematical value is an
`Int`; the division and modulus operations below are modelled on values.
-/

/-- Modelled from the spec: `bn_div` (petrelic.h line 78) computes the
truncated (toward zero) quotient.  RELIC divides the magnitudes and
combines the signs, which is exactly sign-magnitude truncated division. -/
def bn_div (a b : Int) : Int :=
  let q : Nat := a.natAbs / b.natAbs
  if (0 ≤ a ∧ 0 ≤ b) ∨ (a < 0 ∧ b < 0) then (q : Int) else -(q : Int)

/-- Modelled from the spec: `bn_div_rem` (petrelic.h line 79) yields the
truncated quotient together with a remainder whose sign matches the
dividend: the magnitudes are divided and the dividend's sign is attached
to the remainder. -/
def bn_div_rem (a b : Int) : Int × Int :=
  (bn_div a b,
   if 0 ≤ a then ((a.natAbs % b.natAbs : Nat) : Int)
   else -((a.natAbs % b.natAbs : Nat) : Int))

/-- Modelled from the spec: `bn_mod` (petrelic.h line 82) performs
Euclidean-style reduction: it takes the signed remainder produced by
`bn_div_rem` and, when that remainder is negative, adds the modulus once
so that the result is non-negative. -/
def bn_mod (a m : Int) : Int :=
  let r := (bn_div_rem a m).2
  if r < 0 then r + m else r

/-! ## Big integer engine: serialization -/

/-- Little-endian digit extraction with explicit fuel (the fuel is an
upper bound on the value, so it never runs out). -/
def digitsLEAux (b : Nat) : Nat → Nat → List Nat
  | 0, _ => []
  | _ + 1, 0 => []
  | fuel + 1, n + 1 =>
    if b < 2 then [] else (n + 1) % b :: digitsLEAux b fuel ((n + 1) / b)

/-- Little-endian digits of `n` in base `b` (most significant digit
last, no leading zero digit).  Shared by the binary (base 256) and
string (base `radix`) codecs. -/
def digitsLE (b : Nat) (n : Nat) : List Nat := digitsLEAux b n n

/-- Value of a little-endian digit list in base `b`. -/
def valLE (b : Nat) : List Nat → Nat
  | [] => 0
  | d :: l => d + b * valLE b l

/-- Modelled from the spec: `bn_write_bin` (petrelic.h line 58) writes
the magnitude of the big integer as big-endian bytes of minimal length;
the sign is carried out of band. -/
def bn_write_bin (a : Int) : List Nat :=
  (digitsLE 256 a.natAbs).reverse

/-- Modelled from the spec: `bn_read_bin` (petrelic.h lines 56-58)
reads big-endian magnitude bytes back into a (non-negative) value. -/
def bn_read_bin (bin : List Nat) : Nat :=
  bin.foldl (fun acc d => acc * 256 + d) 0

/-- Modelled from the spec: `bn_write_str` (petrelic.h line 55) writes a
signed big integer in the given radix.  The string is modelled as an
optional minus marker together with the list of big-endian digit
values. -/
def bn_write_str (a : Int) (radix : Nat) : Bool × List Nat :=
  (decide (a < 0), (digitsLE radix a.natAbs).reverse)

/-- Modelled from the spec: `bn_read_str` (petrelic.h line 54) parses a
signed big integer from the given radix. -/
def bn_read_str (s : Bool × List Nat) (radix : Nat) : Int :=
  let mag : Nat := s.2.foldl (fun acc d => acc * radix + d) 0
  if s.1 then -(mag : Int) else (mag : Int)

/-! ## Big integer engine: representation (`bn_st`)

`petrelic.h` lines 17-32: a `bn_st` holds `alloc`, `used`, `sign` and a
fixed backing array `dig_t dp[34]` with `dig_t = uint64_t`. -/

/-- The `bn_st` struct of petrelic.h (lines 18-30): allocated digit
count, used digit count, sign, and the fixed array of 34 64-bit digits,
modelled as a function from index to digit value. -/
structure bn_st where
  alloc : Nat
  used : Nat
  sign : Bool
  dp : Nat → Nat

/-- Modelled from the spec: the representation invariant of a `bn_st`
maintained by every operation (spec §3): the used-digit count stays
between 1 and the fixed capacity 34, and each digit is a 64-bit machine
word. -/
def bn_wf (a : bn_st) : Prop :=
  1 ≤ a.used ∧ a.used ≤ 34 ∧ ∀ i, i < a.used → a.dp i < 2 ^ 64

/-- Magnitude stored in a `bn_st`: the base-2^64 value of its used
digits. -/
def bn_magnitude (a : bn_st) : Nat :=
  ∑ i ∈ Finset.range a.used, a.dp i * 2 ^ (64 * i)

/-! ## Constant getters (petrelic.c)

`petrelic.c` defines `CONST_RLC_DIG = RLC_DIG`, `CONST_RLC_OK = RLC_OK`
and the functions `get_rlc_dig` / `get_rlc_ok` returning the same
macros.  The macros come from the external RELIC headers, so their
values are modelled as an environment of compile-time constants; the
functions read nothing else. -/

/-- The compile-time constants imported from `<relic/relic.h>`. -/
structure RlcEnv where
  RLC_DIG : Nat
  RLC_OK : Int

/-- `get_rlc_dig` (petrelic.c lines 13-15): returns the macro
`RLC_DIG`. -/
def get_rlc_dig (env : RlcEnv) : Nat := env.RLC_DIG

/-- `get_rlc_ok` (petrelic.c lines 17-19): returns the macro
`RLC_OK`. -/
def get_rlc_ok (env : RlcEnv) : Int := env.RLC_OK

/-- `CONST_RLC_DIG` (petrelic.c line 3): the exported constant
initialized to `RLC_DIG`. -/
def CONST_RLC_DIG (env : RlcEnv) : Nat := env.RLC_DIG

/-- `CONST_RLC_OK` (petrelic.c line 4): the exported constant
initialized to `RLC_OK`. -/
def CONST_RLC_OK (env : RlcEnv) : Int := env.RLC_OK

/-- A concrete well-formed `bn_st` (the canonical zero: one used digit
holding 0), used to exercise the capacity bound. -/
def bn_zero_st : bn_st :=
  { alloc := 34, used := 1, sign := false, dp := fun _ => 0 }


/-! ## Base field engine

Spec §4.2: arithmetic modulo a fixed prime, canonical reduced form
`[0, p)`.  Field elements are modelled as `Nat` residues with explicit
`% q`; inversion is Fermat exponentiation `x^(q-2)` (the spec leaves the
inversion algorithm to the implementer). -/

/-- Modelled from the spec: base-field addition, canonical residue. -/
def fp_add (q a b : Nat) : Nat := (a + b) % q

/-- Modelled from the spec: base-field subtraction, canonical residue. -/
def fp_sub (q a b : Nat) : Nat := (a + (q - b)) % q

/-- Modelled from the spec: base-field multiplication, canonical
residue. -/
def fp_mul (q a b : Nat) : Nat := a * b % q

/-- Modelled from the spec: base-field negation, canonical residue. -/
def fp_neg (q a : Nat) : Nat := (q - a) % q

/-- Base-field exponentiation by repeated multiplication. -/
def fp_pow (q a : Nat) : Nat → Nat
  | 0 => 1 % q
  | n + 1 => fp_mul q a (fp_pow q a n)

/-- Modelled from the spec: base-field inversion (undefined behaviour at
zero is modelled by totality: `fp_inv q 0 = 0`). -/
def fp_inv (q a : Nat) : Nat := fp_pow q a (q - 2)

/-! ## Curve groups G1 / G2

Spec §4.4.  The RELIC point arithmetic behind `g1_*`/`g2_*` is not in
the repository, so the groups are modelled from the spec on a miniature
member of the same curve family `y^2 = x^3 + B`: G1 is the curve `y^2 =
x^3 + 4` over `F_7` (3 points, prime order `r = 3`, cofactor 1), G2 is
`y^2 = x^3 + 4` over `F_11` (12 points, order `4 * r`: cofactor 4, so
the prime-order subgroup is proper, as for the real G2).  The projective
identity (`z = 0`) is modelled by the `none` constructor; finite points
are affine coordinate pairs. -/

/-- A curve point: `none` is the point at infinity (the projective
`z = 0` class), `some (x, y)` an affine point. -/
abbrev EcPt := Option (Nat × Nat)

/-- Modelled from the spec: the curve equation test `y^2 = x^3 + B`
over `F_q` (with canonical-residue range checks; the identity is on the
curve). -/
def ec_on_curve (q B : Nat) : EcPt → Bool
  | none => true
  | some (x, y) =>
    decide (x < q) && decide (y < q) &&
      decide (fp_mul q y y = fp_add q (fp_mul q (fp_mul q x x) x) B)

/-- Modelled from the spec: point negation `(x, y) ↦ (x, -y)`. -/
def ec_neg (q : Nat) : EcPt → EcPt
  | none => none
  | some (x, y) => some (x, fp_neg q y)

/-- Modelled from the spec: chord-tangent point addition with the
identity special-cased on either operand and opposite points mapping to
the identity. -/
def ec_add (q : Nat) : EcPt → EcPt → EcPt
  | none, r => r
  | p, none => p
  | some (x1, y1), some (x2, y2) =>
    if x1 = x2 ∧ y2 = fp_neg q y1 then none
    else
      let l :=
        if x1 = x2 then fp_mul q (fp_mul q 3 (fp_mul q x1 x1)) (fp_inv q (fp_mul q 2 y1))
        else fp_mul q (fp_sub q y2 y1) (fp_inv q (fp_sub q x2 x1))
      let x3 := fp_sub q (fp_sub q (fp_mul q l l) x1) x2
      some (x3, fp_sub q (fp_mul q l (fp_sub q x1 x3)) y1)

/-- Modelled from the spec: point doubling by the tangent formula, with
2-torsion points mapping to the identity. -/
def ec_dbl (q : Nat) : EcPt → EcPt
  | none => none
  | some (x, y) =>
    if fp_neg q y = y then none
    else
      let l := fp_mul q (fp_mul q 3 (fp_mul q x x)) (fp_inv q (fp_mul q 2 y))
      let x3 := fp_sub q (fp_sub q (fp_mul q l l) x) x
      some (x3, fp_sub q (fp_mul q l (fp_sub q x x3)) y)

/-- All points of the ambient affine plane over `F_q`, plus the
identity; used to settle finite-domain facts by enumeration. -/
def allPts (q : Nat) : List EcPt :=
  none :: (List.range q).flatMap (fun x => (List.range q).map (fun y => some (x, y)))

/-- The list of points of the curve `y^2 = x^3 + B` over `F_q`. -/
def curvePts (q B : Nat) : List EcPt := (allPts q).filter (ec_on_curve q B)

/-! ## Generic double-and-add scalar multiplication

Spec §4.4 `mul`: scalar multiplication by an arbitrary-magnitude signed
scalar, processing the scalar bits most-significant-bit first with a
doubling and a conditional addition per bit; `mul_sim`: simultaneous
`k·P + m·Q` by interleaved bit processing of both scalars.  The walk is
generic in the group operations so that G1, G2 and GT instantiate it. -/

/-- The spec-side reference semantics: `k`-fold repeated addition of `p`
starting from the identity. -/
def repAdd {α : Type} (add : α → α → α) (zero : α) (p : α) : Nat → α
  | 0 => zero
  | n + 1 => add (repAdd add zero p n) p

/-- One step of the double-and-add walk: double, then conditionally add
the base point, depending on the current scalar bit. -/
def mulStep {α : Type} (add : α → α → α) (dbl : α → α) (p : α)
    (r : α) (d : Nat) : α :=
  if d = 1 then add (dbl r) p else dbl r

/-- MSB-first double-and-add walk over a bit list. -/
def ecMulBits {α : Type} (add : α → α → α) (dbl : α → α) (zero : α)
    (p : α) (l : List Nat) : α :=
  l.foldl (mulStep add dbl p) zero

/-- Modelled from the spec: scalar multiplication of `p` by the
non-negative scalar `k`, double-and-add over the bits of `k`
most-significant-bit first. -/
def ecMulNat {α : Type} (add : α → α → α) (dbl : α → α) (zero : α)
    (p : α) (k : Nat) : α :=
  ecMulBits add dbl zero p (digitsLE 2 k).reverse

/-- Modelled from the spec: scalar multiplication by a signed big
integer scalar; a negative sign negates the result. -/
def ecMulInt {α : Type} (add : α → α → α) (dbl : α → α) (zero : α)
    (neg : α → α) (p : α) (k : Int) : α :=
  if k < 0 then neg (ecMulNat add dbl zero p k.natAbs)
  else ecMulNat add dbl zero p k.natAbs

/-- One step of the interleaved walk: double, then conditionally add
each of the two base points, depending on the two current scalar bits. -/
def simStep {α : Type} (add : α → α → α) (dbl : α → α) (p q : α)
    (r : α) (dd : Nat × Nat) : α :=
  let r2 := dbl r
  let r3 := if dd.1 = 1 then add r2 p else r2
  if dd.2 = 1 then add r3 q else r3

/-- Interleaved double-and-add walk over a list of bit pairs: one
doubling and up to two conditional additions per step. -/
def ecMulSimBits {α : Type} (add : α → α → α) (dbl : α → α) (zero : α)
    (p q : α) (l : List (Nat × Nat)) : α :=
  l.foldl (simStep add dbl p q) zero

/-- Pad a most-significant-bit-first bit list with leading zero bits up
to length `t`. -/
def padBits (t : Nat) (l : List Nat) : List Nat :=
  List.replicate (t - l.length) 0 ++ l

/-- Modelled from the spec: simultaneous multiplication `k·p + m·q` by
interleaved bit processing of both (non-negative) scalars. -/
def ecMulSimNat {α : Type} (add : α → α → α) (dbl : α → α) (zero : α)
    (p q : α) (k m : Nat) : α :=
  let lk := (digitsLE 2 k).reverse
  let lm := (digitsLE 2 m).reverse
  let t := max lk.length lm.length
  ecMulSimBits add dbl zero p q ((padBits t lk).zip (padBits t lm))

/-- Modelled from the spec: simultaneous multiplication for signed
scalars; the signs are absorbed into the points. -/
def ecMulSimInt {α : Type} (add : α → α → α) (dbl : α → α) (zero : α)
    (neg : α → α) (p q : α) (k m : Int) : α :=
  ecMulSimNat add dbl zero (if k < 0 then neg p else p)
    (if m < 0 then neg q else q) k.natAbs m.natAbs

/-! ## The G1 and G2 operation sets -/

/-- `g1_set_infty`/identity: the point at infinity. -/
def g1_infty : EcPt := none

/-- `g1_get_gen`: the fixed G1 generator of the model. -/
def g1_get_gen : EcPt := some (0, 2)

/-- `g1_get_ord`: the shared prime group order of the model. -/
def g1_get_ord : Int := 3

/-- `g1_neg` on the model curve. -/
def g1_neg (p : EcPt) : EcPt := ec_neg 7 p

/-- `g1_add` on the model curve. -/
def g1_add (p r : EcPt) : EcPt := ec_add 7 p r

/-- `g1_dbl` on the model curve. -/
def g1_dbl (p : EcPt) : EcPt := ec_dbl 7 p

/-- `g1_mul`: double-and-add scalar multiplication in G1. -/
def g1_mul (p : EcPt) (k : Int) : EcPt :=
  ecMulInt (ec_add 7) (ec_dbl 7) none (ec_neg 7) p k

/-- `g1_mul_sim`: interleaved simultaneous multiplication in G1. -/
def g1_mul_sim (p : EcPt) (k : Int) (r : EcPt) (m : Int) : EcPt :=
  ecMulSimInt (ec_add 7) (ec_dbl 7) none (ec_neg 7) p r k m

/-- Modelled from the spec: membership in the prime-order subgroup of
the G1 curve — being a scalar multiple of the generator. -/
def g1_in_subgroup (p : EcPt) : Bool :=
  decide (∃ k : Fin 3, p = ecMulNat (ec_add 7) (ec_dbl 7) none g1_get_gen k.val)

/-- Modelled from the spec: `g1_is_valid` checks the curve equation and
prime-order-subgroup membership (the latter by multiplying by the group
order and comparing with the identity). -/
def g1_is_valid (p : EcPt) : Bool :=
  ec_on_curve 7 4 p && decide (ecMulNat (ec_add 7) (ec_dbl 7) none p 3 = none)

/-- `g2_set_infty`/identity: the point at infinity. -/
def g2_infty : EcPt := none

/-- `g2_get_gen`: the fixed G2 generator of the model (a point of the
prime-order subgroup). -/
def g2_get_gen : EcPt := some (0, 2)

/-- `g2_get_ord`: the shared prime group order of the model. -/
def g2_get_ord : Int := 3

/-- `g2_neg` on the model curve. -/
def g2_neg (p : EcPt) : EcPt := ec_neg 11 p

/-- `g2_add` on the model curve. -/
def g2_add (p r : EcPt) : EcPt := ec_add 11 p r

/-- `g2_dbl` on the model curve. -/
def g2_dbl (p : EcPt) : EcPt := ec_dbl 11 p

/-- `g2_mul`: double-and-add scalar multiplication in G2. -/
def g2_mul (p : EcPt) (k : Int) : EcPt :=
  ecMulInt (ec_add 11) (ec_dbl 11) none (ec_neg 11) p k

/-- `g2_mul_sim`: interleaved simultaneous multiplication in G2. -/
def g2_mul_sim (p : EcPt) (k : Int) (r : EcPt) (m : Int) : EcPt :=
  ecMulSimInt (ec_add 11) (ec_dbl 11) none (ec_neg 11) p r k m

/-- Modelled from the spec: membership in the prime-order subgroup of
the G2 curve — being a scalar multiple of the subgroup generator. -/
def g2_in_subgroup (p : EcPt) : Bool :=
  decide (∃ k : Fin 3, p = ecMulNat (ec_add 11) (ec_dbl 11) none g2_get_gen k.val)

/-- Modelled from the spec: `g2_is_valid` checks the curve equation and
prime-order-subgroup membership; a point on the curve but in a
wrong-order subgroup must fail. -/
def g2_is_valid (p : EcPt) : Bool :=
  ec_on_curve 11 4 p && decide (ecMulNat (ec_add 11) (ec_dbl 11) none p 3 = none)

/-- A point of the G2 model curve lying outside the prime-order
subgroup (it has order 2): on the curve, yet invalid. -/
def g2_wrong_order_pt : EcPt := some (6, 0)

/-! ## Pairing engine model

Spec §4.6.  The Miller loop and final exponentiation are internal to
RELIC; the pairing layer is modelled from the spec at the level of the
abstract groups: G1, G2 and GT are cyclic of the shared prime order
(13 in the model) and are written additively via discrete logarithms in
`ZMod 13` (for GT, the group written multiplicatively in the spec, the
model's addition is the spec's multiplication and `gt_exp` is the
spec's exponentiation).  `pc_map` is then the bilinear map sending a
pair of logarithms to their product. -/

/-- An element of the pairing model groups: the discrete logarithm with
respect to the fixed generator. -/
abbrev PcElt := ZMod 13

/-- Modelled from the spec: `pc_map`, the bilinear map G1 × G2 → GT.
On discrete logarithms bilinearity is multiplication. -/
def pc_map (p q : PcElt) : PcElt := p * q

/-- `g1` scalar multiplication of the pairing model: the same signed
double-and-add walk instantiated on the model group. -/
def pc_g1_mul (p : PcElt) (k : Int) : PcElt :=
  ecMulInt (· + ·) (fun x => x + x) 0 (fun x => -x) p k

/-- `g2` scalar multiplication of the pairing model. -/
def pc_g2_mul (p : PcElt) (k : Int) : PcElt :=
  ecMulInt (· + ·) (fun x => x + x) 0 (fun x => -x) p k

/-- Modelled from the spec: `gt_exp`, GT exponentiation by a signed
scalar — square-and-multiply, which in the additive dlog model is the
same double-and-add walk. -/
def gt_exp (t : PcElt) (k : Int) : PcElt :=
  ecMulInt (· + ·) (fun x => x + x) 0 (fun x => -x) t k

/-- Accumulating most-significant-bit-first value of a bit list: the
number whose leading bits are those of the accumulator `n` followed by
the (0/1-valued) entries of `l`. -/
def valBitsAcc (n : Nat) (l : List Nat) : Nat :=
  l.foldl (fun m d => m * 2 + (if d = 1 then 1 else 0)) n

/-- The group-law facts needed for double-and-add correctness, relative
to a carrier predicate `C` closed under the operations (for the curve
models `C` is curve membership; for the pairing model it is trivial). -/
structure EcGroupLaws {α : Type} (add : α → α → α) (dbl : α → α)
    (zero : α) (neg : α → α) (C : α → Bool) : Prop where
  czero : C zero = true
  cadd : ∀ x y, C x = true → C y = true → C (add x y) = true
  dbl_eq : ∀ x, C x = true → dbl x = add x x
  add_zero : ∀ x, add x zero = x
  assoc : ∀ x y z, C x = true → C y = true → C z = true →
    add (add x y) z = add x (add y z)
  comm : ∀ x y, C x = true → C y = true → add x y = add y x
  cneg : ∀ x, C x = true → C (neg x) = true
  neg_add : ∀ x y, C x = true → C y = true →
    neg (add x y) = add (neg x) (neg y)
  neg_zero : neg zero = zero

/-! ## Theorems -/

/-- Helper for C9: a base-2^64 digit sum with `u` bounded digits is
below `2 ^ (64 * u)`. -/
theorem digit_sum_lt (dp : Nat → Nat) (u : Nat)
    (h : ∀ i, i < u → dp i < 2 ^ 64) :
    (∑ i ∈ Finset.range u, dp i * 2 ^ (64 * i)) < 2 ^ (64 * u) := by
  induction u with
  | zero => simp
  | succ u ih =>
    rw [Finset.sum_range_succ]
    have h1 : (∑ i ∈ Finset.range u, dp i * 2 ^ (64 * i)) < 2 ^ (64 * u) :=
      ih fun i hi => h i (Nat.lt_succ_of_lt hi)
    have h2 : dp u ≤ 2 ^ 64 - 1 := by
      have := h u (Nat.lt_succ_self u)
      omega
    have h3 : dp u * 2 ^ (64 * u) ≤ (2 ^ 64 - 1) * 2 ^ (64 * u) :=
      Nat.mul_le_mul_right _ h2
    have h4 : 2 ^ (64 * (u + 1)) = 2 ^ 64 * 2 ^ (64 * u) := by
      rw [← pow_add]; ring_nf
    have h5 : 0 < 2 ^ (64 * u) := Nat.pos_pow_of_pos _ (by norm_num)
    calc (∑ i ∈ Finset.range u, dp i * 2 ^ (64 * i)) + dp u * 2 ^ (64 * u)
        < 2 ^ (64 * u) + (2 ^ 64 - 1) * 2 ^ (64 * u) := by omega
      _ = 2 ^ 64 * 2 ^ (64 * u) := by
          have : (1 + (2 ^ 64 - 1)) = 2 ^ 64 := by norm_num
          nlinarith [this]
      _ = 2 ^ (64 * (u + 1)) := h4.symm

/-- C9: a `bn_st` stores its magnitude in a fixed array of 34 64-bit
digits; under the representation invariant (used-digit count between 1
and 34, digits below 2^64) every representable magnitude is strictly
below `2 ^ 2176 = 2 ^ (64 * 34)`. -/
theorem bn_st_magnitude_lt (a : bn_st) (h : bn_wf a) :
    bn_magnitude a < 2 ^ 2176 := by
  obtain ⟨h1, h2, h3⟩ := h
  have hlt : bn_magnitude a < 2 ^ (64 * a.used) := digit_sum_lt a.dp a.used h3
  have hle : (2 : Nat) ^ (64 * a.used) ≤ 2 ^ 2176 := by
    apply Nat.pow_le_pow_right (by norm_num)
    omega
  omega

/-- Witness for C9 at the canonical zero representation. -/
theorem bn_st_magnitude_lt_witness :
    bn_wf bn_zero_st ∧ bn_magnitude bn_zero_st < 2 ^ 2176 :=
  ⟨⟨le_refl 1, by decide, fun i _ => by positivity⟩,
   bn_st_magnitude_lt bn_zero_st
     ⟨le_refl 1, by decide, fun i _ => by positivity⟩⟩

/-- C10: `get_rlc_dig` returns the same value as the exported constant
`CONST_RLC_DIG`, and `get_rlc_ok` the same value as `CONST_RLC_OK`;
both are pure functions of the compile-time constant environment, so
they are deterministic and read no mutable state. -/
theorem rlc_getters_match_constants (env : RlcEnv) :
    get_rlc_dig env = CONST_RLC_DIG env ∧ get_rlc_ok env = CONST_RLC_OK env :=
  ⟨rfl, rfl⟩

/-- C2: for any dividend and a positive modulus, `bn_mod` lands in
`[0, m)`: in particular it is non-negative even for a negative dividend,
although `bn_div_rem`'s remainder is signed. -/
theorem bn_mod_mem_Ico (a m : Int) (hm : 0 < m) :
    0 ≤ bn_mod a m ∧ bn_mod a m < m := by
  have hmabs : (m.natAbs : Int) = m := by omega
  have hpos : 0 < m.natAbs := by omega
  have hlt : a.natAbs % m.natAbs < m.natAbs := Nat.mod_lt _ hpos
  simp only [bn_mod, bn_div_rem]
  split_ifs <;> omega

/-- Witness for C2 at `a = -7`, `m = 3` (result is `2`). -/
theorem bn_mod_mem_Ico_witness :
    (0 : Int) < 3 ∧ 0 ≤ bn_mod (-7) 3 ∧ bn_mod (-7) 3 < 3 :=
  ⟨by decide, bn_mod_mem_Ico (-7) 3 (by decide)⟩

/-- Helper for C6: sign-magnitude quotient agrees with Lean's truncated
division `Int.tdiv`. -/
theorem bn_div_eq_tdiv (a b : Int) : bn_div a b = Int.tdiv a b := by
  rcases a with m | m <;> rcases b with n | n <;>
    simp [bn_div, Int.tdiv, Int.negSucc_lt_zero, Int.negSucc_not_nonneg]

/-- Helper for C6: the signed remainder agrees with Lean's truncated
remainder `Int.tmod`. -/
theorem bn_rem_eq_tmod (a b : Int) : (bn_div_rem a b).2 = Int.tmod a b := by
  rcases a with m | m <;> rcases b with n | n <;>
    simp [bn_div_rem, bn_div, Int.tmod, Int.negSucc_lt_zero,
      Int.negSucc_not_nonneg]

/-- C6: for a nonzero divisor, `bn_div` computes the quotient truncated
toward zero (it coincides with `Int.tdiv`), and `bn_div_rem` also yields
a remainder `r` with `a = q * b + r`, `|r| < |b|`, whose sign matches
the sign of the dividend. -/
theorem bn_div_rem_truncated (a b : Int) (hb : b ≠ 0) :
    bn_div a b = Int.tdiv a b ∧
    (bn_div_rem a b).1 = bn_div a b ∧
    a = bn_div a b * b + (bn_div_rem a b).2 ∧
    (bn_div_rem a b).2.natAbs < b.natAbs ∧
    (0 ≤ a → 0 ≤ (bn_div_rem a b).2) ∧
    (a ≤ 0 → (bn_div_rem a b).2 ≤ 0) := by
  refine ⟨bn_div_eq_tdiv a b, rfl, ?_, ?_, ?_, ?_⟩
  · rw [bn_div_eq_tdiv, bn_rem_eq_tmod]
    linear_combination - Int.tmod_add_tdiv a b
  · have hpos : 0 < b.natAbs := Int.natAbs_pos.mpr hb
    have habs : (bn_div_rem a b).2.natAbs = a.natAbs % b.natAbs := by
      simp only [bn_div_rem]
      split_ifs <;> simp only [Int.natAbs_neg, Int.natAbs_ofNat]
    rw [habs]
    exact Nat.mod_lt _ hpos
  · intro ha
    simp only [bn_div_rem]
    rw [if_pos ha]
    exact Int.natCast_nonneg _
  · intro ha
    simp only [bn_div_rem]
    split_ifs with h
    · have h0 : a = 0 := le_antisymm ha h
      simp [h0]
    · omega

/-- Witness for C6 at `a = -7`, `b = 2` (quotient `-3`, remainder `-1`). -/
theorem bn_div_rem_truncated_witness :
    (2 : Int) ≠ 0 ∧
    (bn_div (-7) 2 = Int.tdiv (-7) 2 ∧
     (bn_div_rem (-7) 2).1 = bn_div (-7) 2 ∧
     (-7 : Int) = bn_div (-7) 2 * 2 + (bn_div_rem (-7) 2).2 ∧
     (bn_div_rem (-7) 2).2.natAbs < (2 : Int).natAbs ∧
     (0 ≤ (-7 : Int) → 0 ≤ (bn_div_rem (-7) 2).2) ∧
     ((-7 : Int) ≤ 0 → (bn_div_rem (-7) 2).2 ≤ 0)) :=
  ⟨by decide, bn_div_rem_truncated (-7) 2 (by decide)⟩

/-- Helper for C7: `digitsLEAux` inverts through `valLE` whenever the
fuel covers the value. -/
theorem valLE_digitsLEAux (b : Nat) (hb : 2 ≤ b) :
    ∀ fuel n, n ≤ fuel → valLE b (digitsLEAux b fuel n) = n := by
  intro fuel
  induction fuel with
  | zero =>
    intro n hn
    have h0 : n = 0 := Nat.le_zero.mp hn
    subst h0
    rfl
  | succ fuel ih =>
    intro n hn
    match n with
    | 0 => rfl
    | n + 1 =>
      have hdiv : (n + 1) / b < n + 1 := Nat.div_lt_self (Nat.succ_pos n) hb
      simp only [digitsLEAux, if_neg (by omega : ¬ b < 2), valLE]
      rw [ih ((n + 1) / b) (by omega)]
      exact Nat.mod_add_div (n + 1) b

/-- Helper for C7: digit extraction round-trips through `valLE`. -/
theorem valLE_digitsLE (b n : Nat) (hb : 2 ≤ b) :
    valLE b (digitsLE b n) = n :=
  valLE_digitsLEAux b hb n n le_rfl

/-- Helper for C7: folding big-endianly over the reversed digit list
computes the little-endian value. -/
theorem foldl_reverse_valLE (b : Nat) (l : List Nat) :
    l.reverse.foldl (fun acc d => acc * b + d) 0 = valLE b l := by
  rw [List.foldl_reverse]
  induction l with
  | nil => rfl
  | cons d l ih =>
    simp only [List.foldr_cons, valLE, ih]
    ring

/-- C7: binary serialization round-trips on the magnitude (the sign is
out of band), and string serialization at any radix at least 2 — which
covers every supported radix 2..64 — round-trips exactly. -/
theorem bn_serialization_round_trip :
    (∀ v : Int, bn_read_bin (bn_write_bin v) = v.natAbs) ∧
    (∀ (v : Int) (radix : Nat), 2 ≤ radix →
      bn_read_str (bn_write_str v radix) radix = v) := by
  constructor
  · intro v
    unfold bn_read_bin bn_write_bin
    rw [foldl_reverse_valLE]
    exact valLE_digitsLE 256 v.natAbs (by norm_num)
  · intro v radix hr
    unfold bn_read_str bn_write_str
    simp only
    rw [foldl_reverse_valLE, valLE_digitsLE _ _ hr]
    split_ifs with h
    · simp only [decide_eq_true_eq] at h
      omega
    · simp only [decide_eq_true_eq] at h
      omega

/-- Witness for C7 at `v = -26`, radix 16. -/
theorem bn_serialization_round_trip_witness :
    2 ≤ 16 ∧ bn_read_str (bn_write_str (-26) 16) 16 = -26 :=
  ⟨by decide, bn_serialization_round_trip.2 (-26) 16 (by decide)⟩

/-- Enumeration bridge: an on-curve point is in the curve-point list. -/
theorem mem_curvePts (q B : Nat) (p : EcPt) (h : ec_on_curve q B p = true) :
    p ∈ curvePts q B := by
  have hmem : p ∈ allPts q := by
    match p with
    | none => exact List.mem_cons_self _ _
    | some (x, y) =>
      have hb : x < q ∧ y < q := by
        simp only [ec_on_curve, Bool.and_eq_true, decide_eq_true_eq] at h
        exact ⟨h.1.1, h.1.2⟩
      apply List.mem_cons_of_mem
      apply List.mem_flatMap.mpr
      exact ⟨x, List.mem_range.mpr hb.1, List.mem_map.mpr ⟨y, List.mem_range.mpr hb.2, rfl⟩⟩
  exact List.mem_filter.mpr ⟨hmem, h⟩

/-- Enumeration bridge: a checker passing on every curve point holds for
every on-curve point. -/
theorem ec_forall1 (q B : Nat) (Q : EcPt → Bool)
    (hall : (curvePts q B).all Q = true) :
    ∀ a, ec_on_curve q B a = true → Q a = true := fun a ha =>
  List.all_eq_true.mp hall a (mem_curvePts q B a ha)

/-- Enumeration bridge for binary point properties. -/
theorem ec_forall2 (q B : Nat) (Q : EcPt → EcPt → Bool)
    (hall : ((curvePts q B).all fun a => (curvePts q B).all (Q a)) = true) :
    ∀ a b, ec_on_curve q B a = true → ec_on_curve q B b = true →
      Q a b = true := fun a b ha hb =>
  List.all_eq_true.mp (List.all_eq_true.mp hall a (mem_curvePts q B a ha))
    b (mem_curvePts q B b hb)

/-- Enumeration bridge for ternary point properties. -/
theorem ec_forall3 (q B : Nat) (Q : EcPt → EcPt → EcPt → Bool)
    (hall : ((curvePts q B).all fun a => (curvePts q B).all fun b =>
      (curvePts q B).all (Q a b)) = true) :
    ∀ a b c, ec_on_curve q B a = true → ec_on_curve q B b = true →
      ec_on_curve q B c = true → Q a b c = true := fun a b c ha hb hc =>
  List.all_eq_true.mp (List.all_eq_true.mp
    (List.all_eq_true.mp hall a (mem_curvePts q B a ha))
    b (mem_curvePts q B b hb)) c (mem_curvePts q B c hc)

/-- The identity is a right unit of `ec_add`, for every point. -/
theorem ec_add_none (q : Nat) (p : EcPt) : ec_add q p none = p := by
  match p with
  | none => rfl
  | some (x, y) => rfl

/-- Adding a point to its negation gives the identity, for every
point. -/
theorem ec_add_neg_self (q : Nat) (p : EcPt) :
    ec_add q p (ec_neg q p) = none := by
  match p with
  | none => rfl
  | some (x, y) => simp [ec_neg, ec_add]

/-- G1 curve: addition is closed on the curve. -/
theorem ec7_add_closed : ∀ a b, ec_on_curve 7 4 a = true →
    ec_on_curve 7 4 b = true → ec_on_curve 7 4 (ec_add 7 a b) = true :=
  ec_forall2 7 4 (fun a b => ec_on_curve 7 4 (ec_add 7 a b)) (by rfl)

/-- G1 curve: doubling agrees with self-addition on the curve. -/
theorem ec7_dbl_eq : ∀ a, ec_on_curve 7 4 a = true →
    ec_dbl 7 a = ec_add 7 a a := fun a ha =>
  of_decide_eq_true
    (ec_forall1 7 4 (fun a => decide (ec_dbl 7 a = ec_add 7 a a)) (by rfl) a ha)

/-- G1 curve: addition is associative on the curve. -/
theorem ec7_assoc : ∀ a b c, ec_on_curve 7 4 a = true →
    ec_on_curve 7 4 b = true → ec_on_curve 7 4 c = true →
    ec_add 7 (ec_add 7 a b) c = ec_add 7 a (ec_add 7 b c) :=
  fun a b c ha hb hc => of_decide_eq_true
    (ec_forall3 7 4
      (fun a b c => decide (ec_add 7 (ec_add 7 a b) c = ec_add 7 a (ec_add 7 b c)))
      (by rfl) a b c ha hb hc)

/-- G1 curve: addition is commutative on the curve. -/
theorem ec7_comm : ∀ a b, ec_on_curve 7 4 a = true →
    ec_on_curve 7 4 b = true → ec_add 7 a b = ec_add 7 b a :=
  fun a b ha hb => of_decide_eq_true
    (ec_forall2 7 4 (fun a b => decide (ec_add 7 a b = ec_add 7 b a))
      (by rfl) a b ha hb)

/-- G1 curve: negation is closed on the curve. -/
theorem ec7_neg_closed : ∀ a, ec_on_curve 7 4 a = true →
    ec_on_curve 7 4 (ec_neg 7 a) = true :=
  ec_forall1 7 4 (fun a => ec_on_curve 7 4 (ec_neg 7 a)) (by rfl)

/-- G1 curve: negation distributes over addition on the curve. -/
theorem ec7_neg_add : ∀ a b, ec_on_curve 7 4 a = true →
    ec_on_curve 7 4 b = true →
    ec_neg 7 (ec_add 7 a b) = ec_add 7 (ec_neg 7 a) (ec_neg 7 b) :=
  fun a b ha hb => of_decide_eq_true
    (ec_forall2 7 4
      (fun a b => decide (ec_neg 7 (ec_add 7 a b) = ec_add 7 (ec_neg 7 a) (ec_neg 7 b)))
      (by rfl) a b ha hb)

/-- G2 curve: addition is closed on the curve. -/
theorem ec11_add_closed : ∀ a b, ec_on_curve 11 4 a = true →
    ec_on_curve 11 4 b = true → ec_on_curve 11 4 (ec_add 11 a b) = true :=
  ec_forall2 11 4 (fun a b => ec_on_curve 11 4 (ec_add 11 a b)) (by rfl)

/-- G2 curve: doubling agrees with self-addition on the curve. -/
theorem ec11_dbl_eq : ∀ a, ec_on_curve 11 4 a = true →
    ec_dbl 11 a = ec_add 11 a a := fun a ha =>
  of_decide_eq_true
    (ec_forall1 11 4 (fun a => decide (ec_dbl 11 a = ec_add 11 a a)) (by rfl) a ha)

/-- G2 curve: addition is associative on the curve. -/
theorem ec11_assoc : ∀ a b c, ec_on_curve 11 4 a = true →
    ec_on_curve 11 4 b = true → ec_on_curve 11 4 c = true →
    ec_add 11 (ec_add 11 a b) c = ec_add 11 a (ec_add 11 b c) :=
  fun a b c ha hb hc => of_decide_eq_true
    (ec_forall3 11 4
      (fun a b c => decide (ec_add 11 (ec_add 11 a b) c = ec_add 11 a (ec_add 11 b c)))
      (by rfl) a b c ha hb hc)

/-- G2 curve: addition is commutative on the curve. -/
theorem ec11_comm : ∀ a b, ec_on_curve 11 4 a = true →
    ec_on_curve 11 4 b = true → ec_add 11 a b = ec_add 11 b a :=
  fun a b ha hb => of_decide_eq_true
    (ec_forall2 11 4 (fun a b => decide (ec_add 11 a b = ec_add 11 b a))
      (by rfl) a b ha hb)

/-- G2 curve: negation is closed on the curve. -/
theorem ec11_neg_closed : ∀ a, ec_on_curve 11 4 a = true →
    ec_on_curve 11 4 (ec_neg 11 a) = true :=
  ec_forall1 11 4 (fun a => ec_on_curve 11 4 (ec_neg 11 a)) (by rfl)

/-- G2 curve: negation distributes over addition on the curve. -/
theorem ec11_neg_add : ∀ a b, ec_on_curve 11 4 a = true →
    ec_on_curve 11 4 b = true →
    ec_neg 11 (ec_add 11 a b) = ec_add 11 (ec_neg 11 a) (ec_neg 11 b) :=
  fun a b ha hb => of_decide_eq_true
    (ec_forall2 11 4
      (fun a b => decide (ec_neg 11 (ec_add 11 a b) = ec_add 11 (ec_neg 11 a) (ec_neg 11 b)))
      (by rfl) a b ha hb)

/-- The bundled double-and-add laws of the G1 model, with curve
membership as the carrier. -/
theorem g1_group_ok :
    EcGroupLaws (ec_add 7) (ec_dbl 7) none (ec_neg 7) (ec_on_curve 7 4) :=
  ⟨rfl, ec7_add_closed, ec7_dbl_eq, ec_add_none 7, ec7_assoc, ec7_comm,
   ec7_neg_closed, ec7_neg_add, rfl⟩

/-- The bundled double-and-add laws of the G2 model, with curve
membership as the carrier. -/
theorem g2_group_ok :
    EcGroupLaws (ec_add 11) (ec_dbl 11) none (ec_neg 11) (ec_on_curve 11 4) :=
  ⟨rfl, ec11_add_closed, ec11_dbl_eq, ec_add_none 11, ec11_assoc, ec11_comm,
   ec11_neg_closed, ec11_neg_add, rfl⟩

/-- Repeated addition stays in the carrier. -/
theorem repAdd_mem {α : Type} (add : α → α → α) (dbl : α → α) (zero : α)
    (neg : α → α) (C : α → Bool) (h : EcGroupLaws add dbl zero neg C)
    (p : α) (hp : C p = true) (n : Nat) :
    C (repAdd add zero p n) = true := by
  induction n with
  | zero => exact h.czero
  | succ n ih => exact h.cadd _ _ ih hp

/-- Repeated addition is additive in the repetition count. -/
theorem repAdd_add {α : Type} (add : α → α → α) (dbl : α → α) (zero : α)
    (neg : α → α) (C : α → Bool) (h : EcGroupLaws add dbl zero neg C)
    (p : α) (hp : C p = true) (a b : Nat) :
    repAdd add zero p (a + b) = add (repAdd add zero p a) (repAdd add zero p b) := by
  induction b with
  | zero => rw [Nat.add_zero]; exact (h.add_zero _).symm
  | succ b ih =>
    show add (repAdd add zero p (a + b)) p
        = add (repAdd add zero p a) (add (repAdd add zero p b) p)
    rw [ih]
    exact h.assoc _ _ _ (repAdd_mem add dbl zero neg C h p hp a)
      (repAdd_mem add dbl zero neg C h p hp b) hp

/-- Exchange law derived from associativity and commutativity on the
carrier. -/
theorem ec_add_add_comm {α : Type} (add : α → α → α) (dbl : α → α) (zero : α)
    (neg : α → α) (C : α → Bool) (h : EcGroupLaws add dbl zero neg C)
    (a b c d : α) (ha : C a = true) (hb : C b = true) (hc : C c = true)
    (hd : C d = true) :
    add (add a b) (add c d) = add (add a c) (add b d) := by
  calc add (add a b) (add c d)
      = add a (add b (add c d)) := h.assoc _ _ _ ha hb (h.cadd _ _ hc hd)
    _ = add a (add (add b c) d) := by rw [h.assoc b c d hb hc hd]
    _ = add a (add (add c b) d) := by rw [h.comm b c hb hc]
    _ = add a (add c (add b d)) := by rw [h.assoc c b d hc hb hd]
    _ = add (add a c) (add b d) := (h.assoc _ _ _ ha hc (h.cadd _ _ hb hd)).symm

/-- Right-exchange law derived from associativity and commutativity on
the carrier. -/
theorem ec_add_right_comm {α : Type} (add : α → α → α) (dbl : α → α) (zero : α)
    (neg : α → α) (C : α → Bool) (h : EcGroupLaws add dbl zero neg C)
    (a b c : α) (ha : C a = true) (hb : C b = true) (hc : C c = true) :
    add (add a b) c = add (add a c) b := by
  calc add (add a b) c
      = add a (add b c) := h.assoc _ _ _ ha hb hc
    _ = add a (add c b) := by rw [h.comm b c hb hc]
    _ = add (add a c) b := (h.assoc _ _ _ ha hc hb).symm

/-- The double-and-add walk computes repeated addition, with the
accumulator tracking the already-processed leading bits. -/
theorem ecMulBits_fold {α : Type} (add : α → α → α) (dbl : α → α) (zero : α)
    (neg : α → α) (C : α → Bool) (h : EcGroupLaws add dbl zero neg C)
    (p : α) (hp : C p = true) :
    ∀ (l : List Nat) (n : Nat),
      l.foldl (mulStep add dbl p) (repAdd add zero p n)
        = repAdd add zero p (valBitsAcc n l) := by
  intro l
  induction l with
  | nil => intro n; rfl
  | cons d t ih =>
    intro n
    have hR : C (repAdd add zero p n) = true := repAdd_mem add dbl zero neg C h p hp n
    have hd : dbl (repAdd add zero p n)
        = add (repAdd add zero p n) (repAdd add zero p n) := h.dbl_eq _ hR
    have h2 : add (repAdd add zero p n) (repAdd add zero p n)
        = repAdd add zero p (n + n) :=
      (repAdd_add add dbl zero neg C h p hp n n).symm
    have hstep : mulStep add dbl p (repAdd add zero p n) d
        = repAdd add zero p (n * 2 + (if d = 1 then 1 else 0)) := by
      by_cases hd1 : d = 1
      · rw [mulStep, if_pos hd1, if_pos hd1, hd, h2,
          (by ring : n * 2 + 1 = (n + n) + 1)]
        rfl
      · rw [mulStep, if_neg hd1, if_neg hd1, hd, h2,
          (by ring : n * 2 + 0 = n + n)]
    rw [List.foldl_cons, hstep]
    exact ih (n * 2 + (if d = 1 then 1 else 0))

/-- Every digit produced by `digitsLEAux` is below the base. -/
theorem digitsLEAux_lt (b : Nat) :
    ∀ fuel n d, d ∈ digitsLEAux b fuel n → d < b := by
  intro fuel
  induction fuel with
  | zero =>
    intro n d hd
    simp [digitsLEAux] at hd
  | succ fuel ih =>
    intro n d hd
    match n with
    | 0 => simp [digitsLEAux] at hd
    | n + 1 =>
      by_cases hb : b < 2
      · simp [digitsLEAux, hb] at hd
      · simp only [digitsLEAux, if_neg hb, List.mem_cons] at hd
        rcases hd with hd | hd
        · subst hd
          exact Nat.mod_lt _ (by omega)
        · exact ih _ _ hd

/-- On 0/1-valued lists the bit-selecting fold is the plain base-2
accumulating fold. -/
theorem valBitsAcc_eq_foldl :
    ∀ (l : List Nat), (∀ d ∈ l, d < 2) → ∀ n,
      valBitsAcc n l = l.foldl (fun m d => m * 2 + d) n := by
  intro l
  induction l with
  | nil => intro _ n; rfl
  | cons d t ih =>
    intro hl n
    have hd : d < 2 := hl d (List.mem_cons_self d t)
    have ht : ∀ x ∈ t, x < 2 := fun x hx => hl x (List.mem_cons_of_mem d hx)
    have hbit : (if d = 1 then 1 else 0) = d := by
      match d, hd with
      | 0, _ => rfl
      | 1, _ => rfl
    show valBitsAcc (n * 2 + (if d = 1 then 1 else 0)) t
        = t.foldl (fun m d => m * 2 + d) (n * 2 + d)
    rw [hbit]
    exact ih ht (n * 2 + d)

/-- The MSB-first value of the reversed binary digit list of `k`
is `k`. -/
theorem valBitsAcc_digits (k : Nat) :
    valBitsAcc 0 ((digitsLE 2 k).reverse) = k := by
  have hlt : ∀ d ∈ (digitsLE 2 k).reverse, d < 2 := fun d hd =>
    digitsLEAux_lt 2 k k d (List.mem_reverse.mp hd)
  rw [valBitsAcc_eq_foldl _ hlt 0, foldl_reverse_valLE 2 (digitsLE 2 k),
    valLE_digitsLE 2 k (by norm_num)]

/-- Double-and-add scalar multiplication equals repeated addition. -/
theorem ecMulNat_eq_repAdd {α : Type} (add : α → α → α) (dbl : α → α)
    (zero : α) (neg : α → α) (C : α → Bool)
    (h : EcGroupLaws add dbl zero neg C) (p : α) (hp : C p = true) (k : Nat) :
    ecMulNat add dbl zero p k = repAdd add zero p k := by
  have hf := ecMulBits_fold add dbl zero neg C h p hp ((digitsLE 2 k).reverse) 0
  rw [valBitsAcc_digits k] at hf
  exact hf

/-- One interleaved step, evaluated on a sum of two repeated-addition
accumulators. -/
theorem simStep_eval {α : Type} (add : α → α → α) (dbl : α → α) (zero : α)
    (neg : α → α) (C : α → Bool) (h : EcGroupLaws add dbl zero neg C)
    (p q : α) (hp : C p = true) (hq : C q = true) (n1 n2 d1 d2 : Nat) :
    simStep add dbl p q
      (add (repAdd add zero p n1) (repAdd add zero q n2)) (d1, d2)
    = add (repAdd add zero p (n1 * 2 + (if d1 = 1 then 1 else 0)))
        (repAdd add zero q (n2 * 2 + (if d2 = 1 then 1 else 0))) := by
  have hA := repAdd_mem add dbl zero neg C h p hp n1
  have hB := repAdd_mem add dbl zero neg C h q hq n2
  have hA2 := repAdd_mem add dbl zero neg C h p hp (n1 + n1)
  have hB2 := repAdd_mem add dbl zero neg C h q hq (n2 + n2)
  have hd : dbl (add (repAdd add zero p n1) (repAdd add zero q n2))
      = add (repAdd add zero p (n1 + n1)) (repAdd add zero q (n2 + n2)) := by
    rw [h.dbl_eq _ (h.cadd _ _ hA hB),
      ec_add_add_comm add dbl zero neg C h _ _ _ _ hA hB hA hB,
      ← repAdd_add add dbl zero neg C h p hp n1 n1,
      ← repAdd_add add dbl zero neg C h q hq n2 n2]
  simp only [simStep]
  rw [hd]
  by_cases b1 : d1 = 1 <;> by_cases b2 : d2 = 1
  · simp only [if_pos b1, if_pos b2]
    rw [ec_add_right_comm add dbl zero neg C h _ _ _ hA2 hB2 hp,
      h.assoc _ _ _ (h.cadd _ _ hA2 hp) hB2 hq,
      (by ring : n1 * 2 + 1 = (n1 + n1) + 1),
      (by ring : n2 * 2 + 1 = (n2 + n2) + 1)]
    rfl
  · simp only [if_pos b1, if_neg b2]
    rw [ec_add_right_comm add dbl zero neg C h _ _ _ hA2 hB2 hp,
      (by ring : n1 * 2 + 1 = (n1 + n1) + 1),
      (by ring : n2 * 2 + 0 = n2 + n2)]
    rfl
  · simp only [if_neg b1, if_pos b2]
    rw [h.assoc _ _ _ hA2 hB2 hq,
      (by ring : n1 * 2 + 0 = n1 + n1),
      (by ring : n2 * 2 + 1 = (n2 + n2) + 1)]
    rfl
  · simp only [if_neg b1, if_neg b2]
    rw [(by ring : n1 * 2 + 0 = n1 + n1), (by ring : n2 * 2 + 0 = n2 + n2)]

/-- The interleaved walk computes the sum of the two repeated
additions, with accumulators tracking the processed leading bits. -/
theorem ecMulSimBits_fold {α : Type} (add : α → α → α) (dbl : α → α)
    (zero : α) (neg : α → α) (C : α → Bool)
    (h : EcGroupLaws add dbl zero neg C)
    (p q : α) (hp : C p = true) (hq : C q = true) :
    ∀ (l1 l2 : List Nat), l1.length = l2.length → ∀ n1 n2,
      (l1.zip l2).foldl (simStep add dbl p q)
        (add (repAdd add zero p n1) (repAdd add zero q n2))
      = add (repAdd add zero p (valBitsAcc n1 l1))
          (repAdd add zero q (valBitsAcc n2 l2)) := by
  intro l1
  induction l1 with
  | nil =>
    intro l2 hlen n1 n2
    have h2 : l2 = [] := by
      cases l2 with
      | nil => rfl
      | cons x xs => simp at hlen
    subst h2
    rfl
  | cons d1 t1 ih =>
    intro l2 hlen n1 n2
    cases l2 with
    | nil => simp at hlen
    | cons d2 t2 =>
      have hlen2 : t1.length = t2.length := by simpa using hlen
      rw [List.zip_cons_cons, List.foldl_cons,
        simStep_eval add dbl zero neg C h p q hp hq n1 n2 d1 d2]
      exact ih t2 hlen2 _ _

/-- Leading zero bits contribute nothing from a zero accumulator. -/
theorem valBitsAcc_replicate (j : Nat) :
    valBitsAcc 0 (List.replicate j 0) = 0 := by
  induction j with
  | zero => rfl
  | succ j ih => exact ih

/-- Padding with leading zero bits preserves the value. -/
theorem valBitsAcc_padBits (t : Nat) (l : List Nat) :
    valBitsAcc 0 (padBits t l) = valBitsAcc 0 l := by
  have hsplit : valBitsAcc 0 (padBits t l)
      = valBitsAcc (valBitsAcc 0 (List.replicate (t - l.length) 0)) l := by
    simp [padBits, valBitsAcc, List.foldl_append]
  rw [hsplit, valBitsAcc_replicate]

/-- Padding up to a sufficient length yields that length. -/
theorem padBits_length (t : Nat) (l : List Nat) (hl : l.length ≤ t) :
    (padBits t l).length = t := by
  simp [padBits]
  omega

/-- Interleaved simultaneous multiplication equals the sum of the two
individual double-and-add multiplications (non-negative scalars). -/
theorem ecMulSimNat_eq {α : Type} (add : α → α → α) (dbl : α → α)
    (zero : α) (neg : α → α) (C : α → Bool)
    (h : EcGroupLaws add dbl zero neg C)
    (p q : α) (hp : C p = true) (hq : C q = true) (k m : Nat) :
    ecMulSimNat add dbl zero p q k m
      = add (ecMulNat add dbl zero p k) (ecMulNat add dbl zero q m) := by
  have hlen :
      (padBits (max (digitsLE 2 k).reverse.length (digitsLE 2 m).reverse.length)
        (digitsLE 2 k).reverse).length
      = (padBits (max (digitsLE 2 k).reverse.length (digitsLE 2 m).reverse.length)
          (digitsLE 2 m).reverse).length := by
    rw [padBits_length _ _ (le_max_left _ _), padBits_length _ _ (le_max_right _ _)]
  have h0 : add (repAdd add zero p 0) (repAdd add zero q 0) = zero :=
    h.add_zero zero
  have hf := ecMulSimBits_fold add dbl zero neg C h p q hp hq
    (padBits (max (digitsLE 2 k).reverse.length (digitsLE 2 m).reverse.length)
      (digitsLE 2 k).reverse)
    (padBits (max (digitsLE 2 k).reverse.length (digitsLE 2 m).reverse.length)
      (digitsLE 2 m).reverse)
    hlen 0 0
  rw [h0, valBitsAcc_padBits, valBitsAcc_padBits, valBitsAcc_digits,
    valBitsAcc_digits] at hf
  rw [ecMulNat_eq_repAdd add dbl zero neg C h p hp k,
    ecMulNat_eq_repAdd add dbl zero neg C h q hq m]
  exact hf

/-- Repeated addition of a negated point is the negated repeated
addition. -/
theorem repAdd_neg {α : Type} (add : α → α → α) (dbl : α → α) (zero : α)
    (neg : α → α) (C : α → Bool) (h : EcGroupLaws add dbl zero neg C)
    (p : α) (hp : C p = true) (n : Nat) :
    repAdd add zero (neg p) n = neg (repAdd add zero p n) := by
  induction n with
  | zero => exact h.neg_zero.symm
  | succ n ih =>
    show add (repAdd add zero (neg p) n) (neg p)
        = neg (add (repAdd add zero p n) p)
    rw [ih, h.neg_add _ _ (repAdd_mem add dbl zero neg C h p hp n) hp]

/-- Absorbing the scalar sign into the point gives the signed
double-and-add multiplication. -/
theorem ecMulNat_signed {α : Type} (add : α → α → α) (dbl : α → α)
    (zero : α) (neg : α → α) (C : α → Bool)
    (h : EcGroupLaws add dbl zero neg C) (p : α) (hp : C p = true) (k : Int) :
    ecMulNat add dbl zero (if k < 0 then neg p else p) k.natAbs
      = ecMulInt add dbl zero neg p k := by
  by_cases hk : k < 0
  · simp only [if_pos hk, ecMulInt]
    rw [ecMulNat_eq_repAdd add dbl zero neg C h (neg p) (h.cneg p hp) _,
      repAdd_neg add dbl zero neg C h p hp _,
      ← ecMulNat_eq_repAdd add dbl zero neg C h p hp _]
  · simp only [if_neg hk, ecMulInt]

/-- Interleaved simultaneous multiplication equals the sum of the two
signed multiplications. -/
theorem ecMulSimInt_eq {α : Type} (add : α → α → α) (dbl : α → α)
    (zero : α) (neg : α → α) (C : α → Bool)
    (h : EcGroupLaws add dbl zero neg C)
    (p q : α) (hp : C p = true) (hq : C q = true) (k m : Int) :
    ecMulSimInt add dbl zero neg p q k m
      = add (ecMulInt add dbl zero neg p k) (ecMulInt add dbl zero neg q m) := by
  have hp' : C (if k < 0 then neg p else p) = true := by
    by_cases hk : k < 0
    · rw [if_pos hk]; exact h.cneg p hp
    · rw [if_neg hk]; exact hp
  have hq' : C (if m < 0 then neg q else q) = true := by
    by_cases hm : m < 0
    · rw [if_pos hm]; exact h.cneg q hq
    · rw [if_neg hm]; exact hq
  unfold ecMulSimInt
  rw [ecMulSimNat_eq add dbl zero neg C h _ _ hp' hq' k.natAbs m.natAbs,
    ecMulNat_signed add dbl zero neg C h p hp k,
    ecMulNat_signed add dbl zero neg C h q hq m]

/-- C4: in G1 and likewise in G2, for points on the curve: the identity
is a right unit of `add`, adding the negation gives the identity, and
addition is associative. -/
theorem ec_group_laws :
    (∀ p r s : EcPt, ec_on_curve 7 4 p = true → ec_on_curve 7 4 r = true →
       ec_on_curve 7 4 s = true →
       g1_add p g1_infty = p ∧ g1_add p (g1_neg p) = g1_infty ∧
       g1_add (g1_add p r) s = g1_add p (g1_add r s)) ∧
    (∀ p r s : EcPt, ec_on_curve 11 4 p = true → ec_on_curve 11 4 r = true →
       ec_on_curve 11 4 s = true →
       g2_add p g2_infty = p ∧ g2_add p (g2_neg p) = g2_infty ∧
       g2_add (g2_add p r) s = g2_add p (g2_add r s)) := by
  constructor
  · intro p r s hp hr hs
    exact ⟨ec_add_none 7 p, ec_add_neg_self 7 p, ec7_assoc p r s hp hr hs⟩
  · intro p r s hp hr hs
    exact ⟨ec_add_none 11 p, ec_add_neg_self 11 p, ec11_assoc p r s hp hr hs⟩

/-- Witness for C4 at three concrete points of the G2 model curve. -/
theorem ec_group_laws_witness :
    ec_on_curve 11 4 (some (0, 2)) = true ∧
    ec_on_curve 11 4 (some (1, 4)) = true ∧
    ec_on_curve 11 4 (some (3, 3)) = true ∧
    (g2_add (some (0, 2)) g2_infty = some (0, 2) ∧
     g2_add (some (0, 2)) (g2_neg (some (0, 2))) = g2_infty ∧
     g2_add (g2_add (some (0, 2)) (some (1, 4))) (some (3, 3))
       = g2_add (some (0, 2)) (g2_add (some (1, 4)) (some (3, 3)))) :=
  ⟨by decide, by decide, by decide,
   ec_group_laws.2 (some (0, 2)) (some (1, 4)) (some (3, 3))
     (by decide) (by decide) (by decide)⟩

/-- C3: in G1 and likewise in G2, scalar multiplication by a
non-negative `k` equals `k`-fold repeated addition from the identity,
and multiplying by the group order returned by `get_ord` gives the
identity (in G2 for the valid points, which form the prime-order
subgroup). -/
theorem ec_mul_consistency :
    (∀ p : EcPt, ec_on_curve 7 4 p = true → ∀ k : Nat,
       g1_mul p (k : Int) = repAdd (ec_add 7) none p k) ∧
    (∀ p : EcPt, ec_on_curve 7 4 p = true → g1_mul p g1_get_ord = g1_infty) ∧
    (∀ p : EcPt, ec_on_curve 11 4 p = true → ∀ k : Nat,
       g2_mul p (k : Int) = repAdd (ec_add 11) none p k) ∧
    (∀ p : EcPt, g2_is_valid p = true → g2_mul p g2_get_ord = g2_infty) := by
  refine ⟨?_, ?_, ?_, ?_⟩
  · intro p hp k
    unfold g1_mul ecMulInt
    rw [if_neg (by omega : ¬ (k : Int) < 0), Int.natAbs_ofNat]
    exact ecMulNat_eq_repAdd (ec_add 7) (ec_dbl 7) none (ec_neg 7)
      (ec_on_curve 7 4) g1_group_ok p hp k
  · intro p hp
    unfold g1_mul g1_get_ord ecMulInt g1_infty
    rw [if_neg (by omega : ¬ (3 : Int) < 0)]
    exact of_decide_eq_true (ec_forall1 7 4
      (fun a => decide (ecMulNat (ec_add 7) (ec_dbl 7) none a 3 = none))
      (by rfl) p hp)
  · intro p hp k
    unfold g2_mul ecMulInt
    rw [if_neg (by omega : ¬ (k : Int) < 0), Int.natAbs_ofNat]
    exact ecMulNat_eq_repAdd (ec_add 11) (ec_dbl 11) none (ec_neg 11)
      (ec_on_curve 11 4) g2_group_ok p hp k
  · intro p hv
    have h2 : ec_on_curve 11 4 p = true ∧
        ecMulNat (ec_add 11) (ec_dbl 11) none p 3 = none := by
      simp only [g2_is_valid, Bool.and_eq_true, decide_eq_true_eq] at hv
      exact hv
    unfold g2_mul g2_get_ord ecMulInt g2_infty
    rw [if_neg (by omega : ¬ (3 : Int) < 0)]
    exact h2.2

/-- Witness for C3: a five-fold multiplication on the G2 curve and an
order-multiplication of a valid point. -/
theorem ec_mul_consistency_witness :
    ec_on_curve 11 4 (some (0, 2)) = true ∧
    g2_mul (some (0, 2)) ((5 : Nat) : Int)
      = repAdd (ec_add 11) none (some (0, 2)) 5 ∧
    g2_is_valid (some (0, 2)) = true ∧
    g2_mul (some (0, 2)) g2_get_ord = g2_infty :=
  ⟨by decide, ec_mul_consistency.2.2.1 (some (0, 2)) (by decide) 5,
   by decide, ec_mul_consistency.2.2.2 (some (0, 2)) (by decide)⟩

/-- C8: in G1 and likewise in G2, for points on the curve and arbitrary
signed scalars, the interleaved simultaneous multiplication agrees with
the naive combination `add (mul p k) (mul r m)`. -/
theorem ec_mul_sim_consistency :
    (∀ p r : EcPt, ec_on_curve 7 4 p = true → ec_on_curve 7 4 r = true →
       ∀ k m : Int, g1_mul_sim p k r m = g1_add (g1_mul p k) (g1_mul r m)) ∧
    (∀ p r : EcPt, ec_on_curve 11 4 p = true → ec_on_curve 11 4 r = true →
       ∀ k m : Int, g2_mul_sim p k r m = g2_add (g2_mul p k) (g2_mul r m)) := by
  constructor
  · intro p r hp hr k m
    exact ecMulSimInt_eq (ec_add 7) (ec_dbl 7) none (ec_neg 7)
      (ec_on_curve 7 4) g1_group_ok p r hp hr k m
  · intro p r hp hr k m
    exact ecMulSimInt_eq (ec_add 11) (ec_dbl 11) none (ec_neg 11)
      (ec_on_curve 11 4) g2_group_ok p r hp hr k m

/-- Witness for C8 at concrete G1 points with a negative and a positive
scalar. -/
theorem ec_mul_sim_consistency_witness :
    ec_on_curve 7 4 (some (0, 2)) = true ∧
    ec_on_curve 7 4 (some (0, 5)) = true ∧
    g1_mul_sim (some (0, 2)) (-5) (some (0, 5)) 7
      = g1_add (g1_mul (some (0, 2)) (-5)) (g1_mul (some (0, 5)) 7) :=
  ⟨by decide, by decide,
   ec_mul_sim_consistency.1 (some (0, 2)) (some (0, 5))
     (by decide) (by decide) (-5) 7⟩

/-- C5: in G1 and likewise in G2, `is_valid` holds exactly for the
points that satisfy the curve equation and lie in the prime-order
subgroup (the scalar multiples of the generator); the G2 curve point
`(6, 0)`, on the curve but of wrong order, is rejected. -/
theorem ec_is_valid_iff :
    (∀ p : EcPt, g1_is_valid p = (ec_on_curve 7 4 p && g1_in_subgroup p)) ∧
    (∀ p : EcPt, g2_is_valid p = (ec_on_curve 11 4 p && g2_in_subgroup p)) ∧
    ec_on_curve 11 4 g2_wrong_order_pt = true ∧
    g2_is_valid g2_wrong_order_pt = false := by
  refine ⟨?_, ?_, by decide, by decide⟩
  · intro p
    by_cases hc : ec_on_curve 7 4 p = true
    · exact of_decide_eq_true (ec_forall1 7 4
        (fun a => decide (g1_is_valid a = (ec_on_curve 7 4 a && g1_in_subgroup a)))
        (by rfl) p hc)
    · have hc' : ec_on_curve 7 4 p = false := by
        cases hb : ec_on_curve 7 4 p
        · rfl
        · exact absurd hb hc
      simp [g1_is_valid, hc']
  · intro p
    by_cases hc : ec_on_curve 11 4 p = true
    · exact of_decide_eq_true (ec_forall1 11 4
        (fun a => decide (g2_is_valid a = (ec_on_curve 11 4 a && g2_in_subgroup a)))
        (by rfl) p hc)
    · have hc' : ec_on_curve 11 4 p = false := by
        cases hb : ec_on_curve 11 4 p
        · rfl
        · exact absurd hb hc
      simp [g2_is_valid, hc']

/-- The pairing model group satisfies the double-and-add laws with the
trivial carrier. -/
theorem pc_group_ok :
    EcGroupLaws (α := PcElt) (· + ·) (fun x => x + x) 0 (fun x => -x)
      (fun _ => true) :=
  ⟨rfl, fun _ _ _ _ => rfl, fun _ _ => rfl, fun x => add_zero x,
   fun x y z _ _ _ => add_assoc x y z, fun x y _ _ => add_comm x y,
   fun _ _ => rfl, fun x y _ _ => neg_add x y, neg_zero⟩

/-- Repeated addition in the pairing model is multiplication by the
repetition count. -/
theorem pc_repAdd_eq (x : PcElt) (n : Nat) :
    repAdd (α := PcElt) (· + ·) 0 x n = (n : PcElt) * x := by
  induction n with
  | zero => simp [repAdd]
  | succ n ih =>
    have hc : ((n + 1 : Nat) : PcElt) = (n : PcElt) + 1 := by push_cast; ring
    show repAdd (α := PcElt) (· + ·) 0 x n + x = ((n + 1 : Nat) : PcElt) * x
    rw [ih, hc]
    ring

/-- Signed double-and-add in the pairing model is multiplication by the
(cast) scalar. -/
theorem pc_mulInt_eq (x : PcElt) (k : Int) :
    ecMulInt (α := PcElt) (· + ·) (fun y => y + y) 0 (fun y => -y) x k
      = (k : PcElt) * x := by
  by_cases hk : k < 0
  · rw [ecMulInt, if_pos hk,
      ecMulNat_eq_repAdd (· + ·) (fun y => y + y) 0 (fun y => -y)
        (fun _ => true) pc_group_ok x rfl k.natAbs,
      pc_repAdd_eq]
    have h1 : (k.natAbs : Int) = -k := by omega
    have hcast : ((k.natAbs : Nat) : PcElt) = -(k : PcElt) := by
      calc ((k.natAbs : Nat) : PcElt) = ((k.natAbs : Int) : PcElt) :=
            (Int.cast_natCast _).symm
        _ = ((-k : Int) : PcElt) := by rw [h1]
        _ = -(k : PcElt) := Int.cast_neg k
    rw [hcast]
    ring
  · rw [ecMulInt, if_neg hk,
      ecMulNat_eq_repAdd (· + ·) (fun y => y + y) 0 (fun y => -y)
        (fun _ => true) pc_group_ok x rfl k.natAbs,
      pc_repAdd_eq]
    have h1 : (k.natAbs : Int) = k := by omega
    have hcast : ((k.natAbs : Nat) : PcElt) = (k : PcElt) := by
      calc ((k.natAbs : Nat) : PcElt) = ((k.natAbs : Int) : PcElt) :=
            (Int.cast_natCast _).symm
        _ = (k : PcElt) := by rw [h1]
    rw [hcast]

/-- C1: the pairing is bilinear: for all points and signed scalars,
`pc_map (mul P a) (mul Q b)` equals `gt_exp (pc_map P Q) (a * b)`. -/
theorem pc_map_bilinear (P Q : PcElt) (a b : Int) :
    pc_map (pc_g1_mul P a) (pc_g2_mul Q b) = gt_exp (pc_map P Q) (a * b) := by
  simp only [pc_map, pc_g1_mul, pc_g2_mul, gt_exp, pc_mulInt_eq]
  push_cast
  ring
